import Mathlib

/-!
# Verification of the benchmark orchestration and metric extraction engine

Shallow embedding of the harness in `evaluation/QT.py` (class
`QueryTimeEvaluator`) and of the ad-hoc metric extractors in
`evaluation/gcs_accuracy_evaluator.py` (class `GCSAccuracyEvaluator`).

Conventions of the embedding:
* Python floats are modelled as exact rationals (`ℚ`); all numeric strings
  occurring in the claims denote exact decimals.
* `re.findall` for the concrete pattern shapes used by the harness is
  implemented directly over `List Char` (the pattern family
  `label[：:]\s*(\d+\.?\d*)\s*ms` with `re.IGNORECASE`, and the CDP pattern
  `完成！.+?(\d+)\s*ms`).  `\d` is modelled as the ASCII digits and `\s` as
  the common whitespace characters.
* `subprocess.run` is an external collaborator; one invocation's outcome is
  the value of type `RunResult` handed to the trial runner.  The
  `timeoutExpired` constructor stands for `subprocess.TimeoutExpired` (raised
  by the standard library after it has killed the child), `exc` for any
  other launch exception (e.g. `FileNotFoundError`), and `finished rc out`
  for a completed run with return code `rc` and decoded stdout `out`
  (decoding uses `errors='ignore'`, so it is total and delivers a `String`).
* Python `dict`s are insertion-ordered association lists.
-/

/-! ## Characters, digits and Python number parsing -/

/-- ASCII decimal digit, the model of `\d` in the harness's patterns. -/
def isPyDigit (c : Char) : Bool := '0' ≤ c && c ≤ '9'

/-- Whitespace as matched by `\s` (common whitespace characters). -/
def isPySpace (c : Char) : Bool :=
  c = ' ' || c = '\t' || c = '\n' || c = '\r' || c = '\x0b' || c = '\x0c'

/-- ASCII lower-casing, the model of `re.IGNORECASE` comparison. -/
def lcChar (c : Char) : Char :=
  if 'A' ≤ c && c ≤ 'Z' then Char.ofNat (c.toNat + 32) else c

/-- Numeric value of a decimal digit character. -/
def digitVal (c : Char) : ℕ := c.toNat - 48

/-- Value of a digit string, most significant digit first. -/
def digitsVal (l : List Char) : ℕ := l.foldl (fun a c => 10 * a + digitVal c) 0

/-- Model of Python `float(s)` restricted to finite decimal literals:
optional surrounding whitespace, optional sign, `D+[.D*]`, `.D+`, each with an
optional exponent part.  Special values (`inf`, `nan`) and underscore
separators are outside the model; on any other shape Python raises
`ValueError`, modelled as `none`. -/
def pyFloat? (s : String) : Option ℚ :=
  let l := (s.toList.dropWhile isPySpace).reverse.dropWhile isPySpace |>.reverse
  let (sgn, l) : ℤ × List Char :=
    match l with
    | '-' :: r => (-1, r)
    | '+' :: r => (1, r)
    | r => (1, r)
  let (ip, l) := l.span isPyDigit
  let (fp, l) :=
    match l with
    | '.' :: r => r.span isPyDigit
    | r => ([], r)
  let (hasDot, l) := match l, ip ++ fp with
    | '.' :: r, _ => (true, '.' :: r)
    | r, _ => (false, r)
  let (expOk, expVal, l) : Bool × ℤ × List Char :=
    match l with
    | 'e' :: r | 'E' :: r =>
      let (es, r) : ℤ × List Char :=
        match r with
        | '-' :: r2 => (-1, r2)
        | '+' :: r2 => (1, r2)
        | r2 => (1, r2)
      let (ed, r) := r.span isPyDigit
      (!ed.isEmpty, es * digitsVal ed, r)
    | r => (true, 0, r)
  if hasDot then none
  else if ip.isEmpty && fp.isEmpty then none
  else if !l.isEmpty then none
  else if !expOk then none
  else
    let mant : ℤ := sgn * (digitsVal ip * 10 ^ fp.length + digitsVal fp)
    if 0 ≤ expVal then
      some (mkRat (mant * (10 : ℤ) ^ expVal.toNat) (10 ^ fp.length))
    else
      some (mkRat mant (10 ^ fp.length * 10 ^ (-expVal).toNat))

/-- Model of Python `int(s)`: optional surrounding whitespace, optional sign,
one or more decimal digits; anything else raises `ValueError` (`none`). -/
def pyInt? (s : String) : Option ℤ :=
  let l := (s.toList.dropWhile isPySpace).reverse.dropWhile isPySpace |>.reverse
  let (sgn, l) : ℤ × List Char :=
    match l with
    | '-' :: r => (-1, r)
    | '+' :: r => (1, r)
    | r => (1, r)
  let (ds, l) := l.span isPyDigit
  if ds.isEmpty || !l.isEmpty then none
  else some (sgn * digitsVal ds)

/-! ## `re.findall` for the harness's pattern shapes -/

/-- Consume `label` case-insensitively from the front of `s`
(the literal-label part of a pattern under `re.IGNORECASE`). -/
def dropLabelCI : List Char → List Char → Option (List Char)
  | [], s => some s
  | _ :: _, [] => none
  | l :: ls, c :: cs => if lcChar c = lcChar l then dropLabelCI ls cs else none

/-- Try to match `label[：:]\s*(\d+\.?\d*)\s*ms` at the head of `s`
(case-insensitively).  Returns the captured group and the remainder of the
input after the whole match.  The pattern is deterministic: every quantifier
is greedy and no backtracking can change the outcome, because the character
classes of adjacent pieces are disjoint. -/
def matchTimeAt (label : List Char) (s : List Char) : Option (String × List Char) :=
  match dropLabelCI label s with
  | none => none
  | some s1 =>
    match s1 with
    | [] => none
    | c :: s2 =>
      if c = ':' || c = '：' then
        let s3 := s2.dropWhile isPySpace
        let (d1, s4) := s3.span isPyDigit
        if d1.isEmpty then none
        else
          let (dot, s5) : List Char × List Char :=
            match s4 with
            | '.' :: r => (['.'], r)
            | r => ([], r)
          let (d2, s6) := s5.span isPyDigit
          let s7 := s6.dropWhile isPySpace
          match s7 with
          | m :: n :: s8 =>
            if lcChar m = 'm' && lcChar n = 's' then
              some (String.mk (d1 ++ dot ++ d2), s8)
            else none
          | _ => none
      else none

/-- Scan of `re.findall` for a time pattern: try a match at every position,
left to right; on success record the captured group and resume after the
match.  `fuel` bounds the recursion; `fuel = s.length + 1` is always enough
because every successful match consumes at least one character. -/
def findallTimeAux (label : List Char) : ℕ → List Char → List String
  | 0, _ => []
  | _ + 1, [] => []
  | fuel + 1, s@(_ :: rest) =>
    match matchTimeAt label s with
    | some (g, after) => g :: findallTimeAux label fuel after
    | none => findallTimeAux label fuel rest

/-- Try to match `\d+\s*ms` at the head of `s` (case-insensitive `ms`),
returning the captured digits and the remainder. -/
def matchDigitsMsAt (s : List Char) : Option (String × List Char) :=
  let (d1, s1) := s.span isPyDigit
  if d1.isEmpty then none
  else
    let s2 := s1.dropWhile isPySpace
    match s2 with
    | m :: n :: s3 =>
      if lcChar m = 'm' && lcChar n = 's' then some (String.mk d1, s3) else none
    | _ => none

/-- The lazy part of `完成！.+?(\d+)\s*ms`: starting after the literal,
extend `.+?` one (non-newline) character at a time until `(\d+)\s*ms`
matches at the current point. -/
def cdpLazyScan : ℕ → List Char → Option (String × List Char)
  | 0, _ => none
  | _ + 1, [] => none
  | fuel + 1, c :: rest =>
    if c = '\n' then none
    else
      match matchDigitsMsAt rest with
      | some r => some r
      | none => cdpLazyScan fuel rest

/-- Try to match `完成！.+?(\d+)\s*ms` at the head of `s`. -/
def matchCdpAt (s : List Char) : Option (String × List Char) :=
  match dropLabelCI "完成！".toList s with
  | none => none
  | some s1 => cdpLazyScan (s1.length + 1) s1

/-- The `re.findall` scan for the CDP pattern `完成！.+?(\d+)\s*ms`. -/
def findallCdpAux : ℕ → List Char → List String
  | 0, _ => []
  | _ + 1, [] => []
  | fuel + 1, s@(_ :: rest) =>
    match matchCdpAt s with
    | some (g, after) => g :: findallCdpAux fuel after
    | none => findallCdpAux fuel rest

/-- One recognition rule of `QueryTimeEvaluator.extract_execution_time`:
either `label[：:]\s*(\d+\.?\d*)\s*ms` for some literal label, or the CDP
rule `完成！.+?(\d+)\s*ms`.  All rules are compiled with `re.IGNORECASE`. -/
inductive TimeRule where
  | timePat (label : String)
  | cdpDone
deriving DecidableEq, Repr

/-- Model of `re.findall pattern stdout re.IGNORECASE` for one rule. -/
def TimeRule.findall (r : TimeRule) (stdout : String) : List String :=
  match r with
  | .timePat label => findallTimeAux label.toList (stdout.toList.length + 1) stdout.toList
  | .cdpDone => findallCdpAux (stdout.toList.length + 1) stdout.toList

/-! ## `QueryTimeEvaluator.extract_execution_time` (QT.py lines 23-69) -/

/-- The per-dialect pattern lists of `extract_execution_time` (the
`patterns` dict in QT.py).  Keys are the four pattern-set names. -/
def patternSets (key : String) : List TimeRule :=
  if key = "GCS" then
    [.timePat "執行時間", .timePat "execution time", .timePat "Query time"]
  else if key = "CDP" then
    [.timePat "執行時間", .timePat "Execution time", .timePat "Query time", .cdpDone]
  else if key = "PBTree" then
    [.timePat "Execution time", .timePat "execution time", .timePat "Query time",
     .timePat "Time"]
  else
    [.timePat "Execution time", .timePat "execution time", .timePat "Query time"]

/-- Does `needle` occur at the head of the second list? -/
def startsWithChars : List Char → List Char → Bool
  | [], _ => true
  | _ :: _, [] => false
  | n :: ns, c :: cs => n = c && startsWithChars ns cs

/-- Scan for `needle` at every position. -/
def containsChars (needle : List Char) : List Char → Bool
  | [] => needle.isEmpty
  | s@(_ :: rest) => startsWithChars needle s || containsChars needle rest

/-- Substring test, the model of Python's `needle in haystack`. -/
def strContains (haystack needle : String) : Bool :=
  containsChars needle.toList haystack.toList

/-- The dispatch on the algorithm name in `extract_execution_time`:
default `'BAB'`, overridden by substring tests on the name. -/
def pattern_key (algorithm_name : String) : String :=
  if strContains algorithm_name "GCS" then "GCS"
  else if strContains algorithm_name "CDP" then "CDP"
  else if strContains algorithm_name "PB" then "PBTree"
  else "BAB"

/-- The rule loop of `extract_execution_time`: for each pattern in order,
run `re.findall`; if it produced matches, return `float(matches[-1])`;
on `ValueError` fall through to the next pattern. -/
def tryRules (rules : List TimeRule) (stdout : String) : Option ℚ :=
  match rules with
  | [] => none
  | r :: rs =>
    match (r.findall stdout).getLast? with
    | none => tryRules rs stdout
    | some last =>
      match pyFloat? last with
      | some v => some v
      | none => tryRules rs stdout

/-- Model of `QueryTimeEvaluator.extract_execution_time(stdout, algorithm_name)`:
`None` is modelled as `none`. -/
def extract_execution_time (stdout algorithm_name : String) : Option ℚ :=
  tryRules (patternSets (pattern_key algorithm_name)) stdout

/-- The value a single rule contributes: the parse of the last occurrence of
its match in the text, `none` if it does not match at all or if the matched
text cannot be parsed as a number. -/
def ruleValue (r : TimeRule) (stdout : String) : Option ℚ :=
  (r.findall stdout).getLast?.bind pyFloat?

/-! ## `GCSAccuracyEvaluator._extract_*` (gcs_accuracy_evaluator.py 138-169) -/

/-- Splitting scan for `pySplit`: cut whenever the (nonempty) separator
occurs, resuming after it; `fuel = s.length + 1` always suffices. -/
def pySplitAux (sep : List Char) : ℕ → List Char → List Char → List (List Char)
  | 0, cur, _ => [cur.reverse]
  | fuel + 1, cur, s =>
    match s with
    | [] => [cur.reverse]
    | c :: rest =>
      if startsWithChars sep s then
        cur.reverse :: pySplitAux sep fuel [] (s.drop sep.length)
      else
        pySplitAux sep fuel (c :: cur) rest

/-- Python `s.split(sep)` for a nonempty separator: the pieces between the
(non-overlapping, left-to-right) occurrences of `sep`. -/
def pySplit (s sep : String) : List String :=
  if sep.isEmpty then [s]
  else (pySplitAux sep.toList (s.toList.length + 1) [] s.toList).map String.mk

/-- Model of `line.split(sep)[1].split(',')[0]` for a line known to contain `sep`:
the text between the first occurrence of `sep` and the next `','` (or the
end of the line). -/
def afterKeyBeforeComma (sep line : String) : String :=
  pySplit ((pySplit line sep).getD 1 "") "," |>.headD ""

/-- Model of `GCSAccuracyEvaluator._extract_distance`: scan the lines for the first
one containing `distance=`, take the text up to the following comma and
parse it with `float`; any failure (no such line, or `float` raising) falls
into the bare `except` and yields the `0.0` default. -/
def gcs_extract_distance (output : String) : ℚ :=
  match (pySplit output "\n").find? (fun line => strContains line "distance=") with
  | none => 0
  | some line =>
    match pyFloat? (afterKeyBeforeComma "distance=" line) with
    | some v => v
    | none => 0

/-- Model of `GCSAccuracyEvaluator._extract_time`: same shape with `time=` and
`int`, defaulting to `0`. -/
def gcs_extract_time (output : String) : ℤ :=
  match (pySplit output "\n").find? (fun line => strContains line "time=") with
  | none => 0
  | some line =>
    match pyInt? (afterKeyBeforeComma "time=" line) with
    | some v => v
    | none => 0

/-- Model of `GCSAccuracyEvaluator._extract_matches`: first line containing
`matches=`, everything after it parsed with `int`, defaulting to `0`. -/
def gcs_extract_matches (output : String) : ℤ :=
  match (pySplit output "\n").find? (fun line => strContains line "matches=") with
  | none => 0
  | some line =>
    match pyInt? ((pySplit line "matches=").getD 1 "") with
    | some v => v
    | none => 0

/-! ## `QueryTimeEvaluator.run_java_algorithm` (QT.py lines 71-138) -/

/-- Outcome of one `subprocess.run` invocation, the interface to the
external process (see the file header). -/
inductive RunResult where
  | finished (returncode : ℤ) (stdout : String)
  | timeoutExpired
  | exc
deriving DecidableEq, Repr

/-- The repetition loop of `run_java_algorithm`: the `times` list after all
iterations.  A repetition contributes only when the process finished with
return code `0` and a time could be extracted from its stdout; timeouts and
launch exceptions are caught and the loop continues. -/
def collectTimes (runs : List RunResult) (algorithm_name : String) : List ℚ :=
  runs.foldl
    (fun times r =>
      match r with
      | .finished rc out =>
        if rc ≠ 0 then times
        else
          match extract_execution_time out algorithm_name with
          | some t => times ++ [t]
          | none => times
      | .timeoutExpired => times
      | .exc => times)
    []

/-- Stable-by-construction insertion into an ascending list. -/
def insSorted (x : ℚ) : List ℚ → List ℚ
  | [] => [x]
  | y :: ys => if y ≤ x then y :: insSorted x ys else x :: y :: ys

/-- Ascending sort (stable insertion sort). -/
def sortQ (l : List ℚ) : List ℚ := l.foldl (fun acc x => insSorted x acc) []

/-- Model of `np.median`: sort, take the middle element for odd length, the mean of
the two middle elements for even length (`0` on the empty list, which the
harness never reaches). -/
def npMedian (l : List ℚ) : ℚ :=
  let s := sortQ l
  let n := s.length
  if n = 0 then 0
  else if n % 2 = 1 then s.getD (n / 2) 0
  else (s.getD (n / 2 - 1) 0 + s.getD (n / 2) 0) / 2

/-- Model of `run_java_algorithm`, with the subprocess outcomes of the repetitions
passed in as data: `None` (missing `bin` directory, or no successful
repetition) is `none`; otherwise the median of the collected times. -/
def run_java_algorithm (binExists : Bool) (runs : List RunResult)
    (algorithm_name : String) : Option ℚ :=
  if !binExists then none
  else
    let times := collectTimes runs algorithm_name
    if times.isEmpty then none else some (npMedian times)

/-- Declarative description of the successful repetitions: those that
finished with return code `0` and whose stdout yields an extracted value. -/
def successValues (runs : List RunResult) (algorithm_name : String) : List ℚ :=
  runs.filterMap
    (fun r =>
      match r with
      | .finished rc out =>
        if rc = 0 then extract_execution_time out algorithm_name else none
      | _ => none)

/-! ## `QueryTimeEvaluator.run_evaluation` (QT.py lines 177-211) -/

/-- One algorithm's row of `self.results`: an insertion-ordered mapping from
clue count to measured time. -/
abbrev Row : Type := List (ℕ × ℚ)

/-- Model of `self.results`: an insertion-ordered mapping from algorithm name to row. -/
abbrev Table : Type := List (String × Row)

/-- Association-list lookup (Python `d[k]` / `k in d`). -/
def alookup {α : Type} : List (String × α) → String → Option α
  | [], _ => none
  | p :: ts, k => if p.1 = k then some p.2 else alookup ts k

/-- Model of `row[c] = v` with `dict` semantics: an existing key keeps its position,
a new key is appended. -/
def setRow (row : Row) (c : ℕ) (v : ℚ) : Row :=
  if row.any (fun p => p.1 = c) then
    row.map (fun p => if p.1 = c then (c, v) else p)
  else row ++ [(c, v)]

/-- Model of `self.results[a][c] = v`.  The algorithm keys are created up front in
`__init__`, so the update only ever touches an existing outer key. -/
def setTable (t : Table) (a : String) (c : ℕ) (v : ℚ) : Table :=
  t.map (fun p => if p.1 = a then (p.1, setRow p.2 c v) else p)

/-- Lookup inside one row. -/
def rlookup : Row → ℕ → Option ℚ
  | [], _ => none
  | p :: ps, c => if p.1 = c then some p.2 else rlookup ps c

/-- Lookup of one cell of the table. -/
def lookup2 (t : Table) (a : String) (c : ℕ) : Option ℚ :=
  (alookup t a).bind (fun row => rlookup row c)

/-- Model of `run_evaluation`: the nested sweep loop, outer over `clue_range`, inner
over the algorithm list.  The evaluator outcome of each pair (the whole
subprocess world below `run_java_algorithm`) enters as `evalF`; the second
component is the trace of Trial-Runner invocations in the order the loop
makes them. -/
def run_evaluation (algorithms : List String) (clue_range : List ℕ)
    (evalF : String → ℕ → Option ℚ) (init : Table) :
    Table × List (String × ℕ) :=
  clue_range.foldl
    (fun st c =>
      algorithms.foldl
        (fun st2 a =>
          let tr := st2.2 ++ [(a, c)]
          match evalF a c with
          | some v => (setTable st2.1 a c v, tr)
          | none => (st2.1, tr))
        st)
    (init, [])

/-- The inner loop of the sweep at one condition (table component only). -/
def sweepInner (evalF : String → ℕ → Option ℚ) (c : ℕ)
    (algorithms : List String) (t : Table) : Table :=
  algorithms.foldl
    (fun t2 a =>
      match evalF a c with
      | some v => setTable t2 a c v
      | none => t2)
    t

/-- The table component of the sweep alone (same loop without the trace). -/
def sweepTable (algorithms : List String) (clue_range : List ℕ)
    (evalF : String → ℕ → Option ℚ) (init : Table) : Table :=
  clue_range.foldl (fun t c => sweepInner evalF c algorithms t) init

/-- Total number of samples stored in a table. -/
def tableSize (t : Table) : ℕ := (t.map (fun p => p.2.length)).sum

/-! ## `QueryTimeEvaluator.print_summary` (QT.py lines 297-347) -/

/-- One algorithm's entry of the `stats` dict.  The `sd` field carries the
square of `np.std(times)` (the population variance): the standard deviation
itself is an irrational square root, which has no exact rational
representative; no claim depends on its value, only on which algorithms have
a statistics entry and on `avg`. -/
structure Stats where
  avg : ℚ
  lo : ℚ
  hi : ℚ
  sd : ℚ
deriving DecidableEq, Repr

/-- Model of `np.mean`. -/
def npMean (l : List ℚ) : ℚ := l.sum / l.length

/-- Model of `np.min` of a nonempty list. -/
def npMin (l : List ℚ) : ℚ :=
  match l with
  | [] => 0
  | x :: xs => xs.foldl min x

/-- Model of `np.max` of a nonempty list. -/
def npMax (l : List ℚ) : ℚ :=
  match l with
  | [] => 0
  | x :: xs => xs.foldl max x

/-- The population variance, i.e. `np.std(l) ** 2`. -/
def npVarSq (l : List ℚ) : ℚ := npMean (l.map (fun x => (x - npMean l) ^ 2))

/-- The `stats` dict of `print_summary`: algorithms with an empty row are
skipped; for the others the statistics are computed from the row's values in
insertion order. -/
def summary_stats (t : Table) : List (String × Stats) :=
  t.filterMap
    (fun p =>
      if p.2.isEmpty then none
      else
        let times := p.2.map (fun q => q.2)
        some (p.1, ⟨npMean times, npMin times, npMax times, npVarSq times⟩))

/-- Stable insertion (by `avg`) of one entry into an already ranked list:
the new entry goes after every entry whose key is `≤` its own. -/
def insByAvg (p : String × Stats) : List (String × Stats) → List (String × Stats)
  | [] => [p]
  | q :: qs => if q.2.avg ≤ p.2.avg then q :: insByAvg p qs else p :: q :: qs

/-- Model of `sorted(stats.items(), key=lambda x: x[1]['avg'])`: a stable ascending
sort by mean. -/
def sorted_algos (stats : List (String × Stats)) : List (String × Stats) :=
  stats.foldl (fun acc p => insByAvg p acc) []

/-- The ranking lines of `print_summary`: each algorithm with its mean and,
for every entry but the first, the slowdown `avg / baseline` relative to the
first (best) entry. -/
def rankingReport (stats : List (String × Stats)) :
    List (String × ℚ × Option ℚ) :=
  match sorted_algos stats with
  | [] => []
  | best :: rest =>
    (best.1, best.2.avg, none) ::
      rest.map (fun p => (p.1, p.2.avg, some (p.2.avg / best.2.avg)))

/-- The object handed to `json.dump` (QT.py lines 342-346): the `results`
section is `self.results` itself, the `statistics` section the `stats`
dict. -/
def summaryDoc (t : Table) : Table × List (String × Stats) :=
  (t, summary_stats t)

/-! ## The serialized result document (QT.py lines 339-347)

`print_summary` ends by `json.dump`-ing `{'results': ..., 'statistics':
...}` with `indent=2, ensure_ascii=False`.  The document layer is modelled
over decimal literals (`Dec`): a scalar as it appears in the JSON text, a
sign, integer-part digits and fraction digits.  (Python renders each float
through `repr`, which always produces such a literal for the magnitudes the
harness handles; the shortest-repr algorithm itself is a floating-point
concern outside this embedding.)  Deserialization models `json.load` on
documents of exactly this shape. -/

/-- A decimal literal as printed by `repr` on a float: sign, integer-part
digits (most significant first) and fraction digits. -/
structure Dec where
  neg : Bool
  ip : List (Fin 10)
  fp : List (Fin 10)
deriving DecidableEq, Repr

/-- An inner JSON object: condition (or statistic name) to scalar. -/
abbrev Sec : Type := List (String × Dec)

/-- The whole document: the `results` section and the `statistics`
section. -/
abbrev JDoc : Type := List (String × Sec) × List (String × Sec)

/-- The character of a digit. -/
def digitChar (d : Fin 10) : Char := Char.ofNat (48 + d.val)

/-- Render a decimal literal. -/
def printDec (d : Dec) : List Char :=
  (if d.neg then ['-'] else []) ++ d.ip.map digitChar ++ ['.'] ++ d.fp.map digitChar

/-- Quotes around a key.  `json.dump` escapes nothing in the keys the
harness uses (see `safeKey`); with `ensure_ascii=False` non-ASCII characters
are written verbatim. -/
def quoteKey (k : String) : List Char := '"' :: k.toList ++ ['"']

/-- One inner item, at indentation 6: `      "key": value`. -/
def innerItem (p : String × Dec) : List Char :=
  "      ".toList ++ quoteKey p.1 ++ ": ".toList ++ printDec p.2

/-- The item list of an inner object, separated by `,\n`. -/
def innerItems : Sec → List Char
  | [] => []
  | [p] => innerItem p
  | p :: ps => innerItem p ++ ",\n".toList ++ innerItems ps

/-- An inner object: `\x7b\x7d` when empty, otherwise the items on their own
lines with the closing brace at indentation 4. -/
def renderSec (s : Sec) : List Char :=
  match s with
  | [] => "\x7b\x7d".toList
  | _ => "\x7b\n".toList ++ innerItems s ++ "\n    \x7d".toList

/-- One outer item, at indentation 4: `    "name": <object>`. -/
def outerItem (p : String × Sec) : List Char :=
  "    ".toList ++ quoteKey p.1 ++ ": ".toList ++ renderSec p.2

/-- The item list of an outer object. -/
def outerItems : List (String × Sec) → List Char
  | [] => []
  | [p] => outerItem p
  | p :: ps => outerItem p ++ ",\n".toList ++ outerItems ps

/-- An outer object (the value of `results` or `statistics`), closing brace
at indentation 2. -/
def renderMap (m : List (String × Sec)) : List Char :=
  match m with
  | [] => "\x7b\x7d".toList
  | _ => "\x7b\n".toList ++ outerItems m ++ "\n  \x7d".toList

/-- Model of `json.dump({'results': ..., 'statistics': ...}, f, indent=2,
ensure_ascii=False)`: the serialized document. -/
def serializeDoc (d : JDoc) : String :=
  String.mk
    ("\x7b\n  \"results\": ".toList ++ renderMap d.1
      ++ ",\n  \"statistics\": ".toList ++ renderMap d.2 ++ "\n\x7d".toList)

/-- Strip an expected literal from the front of the input. -/
def stripLit : List Char → List Char → Option (List Char)
  | [], s => some s
  | _ :: _, [] => none
  | c :: cs, d :: ds => if d = c then stripLit cs ds else none

/-- Read a key up to the closing quote. -/
def parseKey (s : List Char) : Option (String × List Char) :=
  let k := s.takeWhile (fun c => c ≠ '"')
  match s.dropWhile (fun c => c ≠ '"') with
  | '"' :: rest => some (String.mk k, rest)
  | _ => none

/-- The digit of a digit character. -/
def charDigit (c : Char) : Fin 10 := ⟨min (c.toNat - 48) 9, by omega⟩

/-- Read a decimal literal (sign, digits, point, digits). -/
def parseDec (s : List Char) : Option (Dec × List Char) :=
  let (negb, s1) : Bool × List Char :=
    match s with
    | '-' :: r => (true, r)
    | r => (false, r)
  let ipc := s1.takeWhile isPyDigit
  let s2 := s1.dropWhile isPyDigit
  if ipc.isEmpty then none
  else
    match s2 with
    | '.' :: s3 =>
      let fpc := s3.takeWhile isPyDigit
      let s4 := s3.dropWhile isPyDigit
      if fpc.isEmpty then none
      else some (⟨negb, ipc.map charDigit, fpc.map charDigit⟩, s4)
    | _ => none

/-- Read the items of an inner object, up to and including the closing
`\n    \x7d`. -/
def parseInnerItems : ℕ → List Char → Option (Sec × List Char)
  | 0, _ => none
  | fuel + 1, s => do
    let s ← stripLit "      \"".toList s
    let (k, s) ← parseKey s
    let s ← stripLit ": ".toList s
    let (d, s) ← parseDec s
    match stripLit ",\n".toList s with
    | some s2 => do
      let (rest, s3) ← parseInnerItems fuel s2
      some ((k, d) :: rest, s3)
    | none => do
      let s2 ← stripLit "\n    \x7d".toList s
      some ([(k, d)], s2)

/-- Read an inner object. -/
def parseSec (s : List Char) : Option (Sec × List Char) :=
  match stripLit "\x7b\x7d".toList s with
  | some r => some ([], r)
  | none => do
    let s ← stripLit "\x7b\n".toList s
    parseInnerItems (s.length + 1) s

/-- Read the items of an outer object, up to and including the closing
`\n  \x7d`. -/
def parseOuterItems : ℕ → List Char → Option (List (String × Sec) × List Char)
  | 0, _ => none
  | fuel + 1, s => do
    let s ← stripLit "    \"".toList s
    let (k, s) ← parseKey s
    let s ← stripLit ": ".toList s
    let (sec, s) ← parseSec s
    match stripLit ",\n".toList s with
    | some s2 => do
      let (rest, s3) ← parseOuterItems fuel s2
      some ((k, sec) :: rest, s3)
    | none => do
      let s2 ← stripLit "\n  \x7d".toList s
      some ([(k, sec)], s2)

/-- Read an outer object. -/
def parseMap (s : List Char) : Option (List (String × Sec) × List Char) :=
  match stripLit "\x7b\x7d".toList s with
  | some r => some ([], r)
  | none => do
    let s ← stripLit "\x7b\n".toList s
    parseOuterItems (s.length + 1) s

/-- Model of `json.load` on a serialized result document. -/
def parseDoc (str : String) : Option JDoc := do
  let s := str.toList
  let s ← stripLit "\x7b\n  \"results\": ".toList s
  let (res, s) ← parseMap s
  let s ← stripLit ",\n  \"statistics\": ".toList s
  let (st, s) ← parseMap s
  let s ← stripLit "\n\x7d".toList s
  if s.isEmpty then some (res, st) else none

/-- A key the serializer writes verbatim, exactly as `json.dump` does: no
quote, no backslash, no control character. -/
def safeKey (k : String) : Prop :=
  ∀ c ∈ k.toList, c ≠ '"' ∧ c ≠ '\\' ∧ 32 ≤ c.toNat

/-- A decimal literal as `repr` produces it: at least one digit on each side
of the point. -/
def WFDec (d : Dec) : Prop := d.ip ≠ [] ∧ d.fp ≠ []

/-- Well-formedness of a document: safe keys and well-formed literals
throughout. -/
def WFDoc (d : JDoc) : Prop :=
  (∀ p ∈ d.1, safeKey p.1 ∧ ∀ q ∈ p.2, safeKey q.1 ∧ WFDec q.2) ∧
  (∀ p ∈ d.2, safeKey p.1 ∧ ∀ q ∈ p.2, safeKey q.1 ∧ WFDec q.2)

instance : DecidableEq (List (String × Sec)) := inferInstance

instance : DecidableEq JDoc := instDecidableEqProd

instance (d : JDoc) : Decidable (WFDoc d) := by
  unfold WFDoc safeKey WFDec
  exact instDecidableAnd

/-- The result table of the spec's ranking scenario: three algorithms whose
mean Samples are `10`, `20` and `40`. -/
def exRankTable : Table := [("A", [(2, 10)]), ("B", [(2, 20)]), ("C", [(2, 40)])]

/-! ## Lemmas about the extractor -/

/-- The rule loop returns the first rule's value that is present. -/
theorem tryRules_eq_findSome (rules : List TimeRule) (stdout : String) :
    tryRules rules stdout = rules.findSome? (fun r => ruleValue r stdout) := by
  induction rules with
  | nil => rfl
  | cons r rs ih =>
    rw [tryRules, List.findSome?]
    unfold ruleValue
    cases h : (r.findall stdout).getLast? with
    | none => simpa [h] using ih
    | some last =>
      cases hv : pyFloat? last with
      | none => simpa [h, hv] using ih
      | some v => simp [h, hv]

theorem findSome_of_head_none {α β : Type} (f : α → Option β) (pre l : List α)
    (h : ∀ x ∈ pre, f x = none) :
    (pre ++ l).findSome? f = l.findSome? f := by
  induction pre with
  | nil => rfl
  | cons x xs ih =>
    have hx : f x = none := h x (by simp)
    rw [List.cons_append, List.findSome?, hx]
    exact ih (fun y hy => h y (by simp [hy]))

/-- C1: for every input text and algorithm name, the extractor applies its
recognition rules in order and returns the value of the first rule that
matches at least once, taking the last occurrence of that rule's match in
the text; a rule whose matched text cannot be parsed as a number counts as
non-matching (`ruleValue` is `none` in both cases) and the next rule is
tried.  In particular a text containing `Time: 10 ms` and later
`Time: 25 ms` yields `25.0`. -/
theorem extract_applies_rules_in_order
    (stdout name : String) (pre post : List TimeRule) (r : TimeRule) (v : ℚ)
    (hrules : patternSets (pattern_key name) = pre ++ r :: post)
    (hpre : ∀ r' ∈ pre, ruleValue r' stdout = none)
    (hr : ruleValue r stdout = some v) :
    extract_execution_time stdout name = some v := by
  rw [extract_execution_time, tryRules_eq_findSome, hrules,
    findSome_of_head_none _ _ _ hpre, List.findSome?, hr]

/-- Witness for C1, the spec's own example: on
`"Time: 10 ms\nTime: 25 ms"` none of the three rules preceding the
`Time[：:]...` rule of the `PBTree` set matches, and the extractor returns
the last occurrence of the matching rule, `25.0`. -/
theorem extract_applies_rules_in_order_witness :
    (∀ r' ∈ [TimeRule.timePat "Execution time", TimeRule.timePat "execution time",
        TimeRule.timePat "Query time"],
      ruleValue r' "Time: 10 ms\nTime: 25 ms" = none) ∧
    ruleValue (TimeRule.timePat "Time") "Time: 10 ms\nTime: 25 ms" = some 25 ∧
    extract_execution_time "Time: 10 ms\nTime: 25 ms" "BAB (w/ PB-tree)" = some 25 :=
  ⟨by decide, by decide,
    extract_applies_rules_in_order "Time: 10 ms\nTime: 25 ms" "BAB (w/ PB-tree)"
      [TimeRule.timePat "Execution time", TimeRule.timePat "execution time",
        TimeRule.timePat "Query time"] [] (TimeRule.timePat "Time") 25
      (by decide) (by decide) (by decide)⟩

theorem findSome_none {α β : Type} (f : α → Option β) (l : List α)
    (h : ∀ x ∈ l, f x = none) : l.findSome? f = none := by
  induction l with
  | nil => rfl
  | cons x xs ih =>
    rw [List.findSome?, h x (by simp)]
    exact ih (fun y hy => h y (by simp [hy]))

/-- Counterexample to C2 as stated: the claim asserts that *every* metric
kind the harness extracts reports "not found" as an absent value when no
rule matches, but `GCSAccuracyEvaluator._extract_distance` has no absent
value at all — on the text `"hello"`, which contains no `distance=` token,
it returns the numeric default `0.0` (and `_extract_time` / `_extract_matches`
likewise return `0`). -/
theorem gcs_distance_defaults_to_zero :
    strContains "hello" "distance=" = false ∧ gcs_extract_distance "hello" = 0 ∧
    gcs_extract_time "hello" = 0 ∧ gcs_extract_matches "hello" = 0 := by
  refine ⟨by decide, by decide, by decide, by decide⟩

/-- C2 (amended): when no recognition rule matches,
`QueryTimeEvaluator.extract_execution_time` reports the metric as absent
(`None`), never a default of zero; the extractors of the GCS accuracy
evaluator (distance, time, match count) instead return the numeric default
`0` when no line carries their key. -/
theorem no_match_reports_absent :
    (∀ stdout name : String,
      (∀ r ∈ patternSets (pattern_key name), ruleValue r stdout = none) →
      extract_execution_time stdout name = none) ∧
    (∀ out : String,
      (∀ line ∈ pySplit out "\n", strContains line "distance=" = false) →
      gcs_extract_distance out = 0) ∧
    (∀ out : String,
      (∀ line ∈ pySplit out "\n", strContains line "time=" = false) →
      gcs_extract_time out = 0) ∧
    (∀ out : String,
      (∀ line ∈ pySplit out "\n", strContains line "matches=" = false) →
      gcs_extract_matches out = 0) := by
  refine ⟨fun stdout name h => ?_, fun out h => ?_, fun out h => ?_, fun out h => ?_⟩
  · rw [extract_execution_time, tryRules_eq_findSome]
    exact findSome_none _ _ h
  · rw [gcs_extract_distance]
    rw [List.find?_eq_none.mpr (fun line hl => by simp [h line hl])]
  · rw [gcs_extract_time]
    rw [List.find?_eq_none.mpr (fun line hl => by simp [h line hl])]
  · rw [gcs_extract_matches]
    rw [List.find?_eq_none.mpr (fun line hl => by simp [h line hl])]

/-- Witness for C2 (amended), on the matchless text `"nothing here"`. -/
theorem no_match_reports_absent_witness :
    extract_execution_time "nothing here" "GCS" = none ∧
    gcs_extract_distance "nothing here" = 0 :=
  ⟨no_match_reports_absent.1 "nothing here" "GCS" (by decide),
    no_match_reports_absent.2.1 "nothing here" (by decide)⟩

/-! ## Lemmas about the trial runner -/

theorem collectTimes_eq_successValues (runs : List RunResult) (name : String) :
    collectTimes runs name = successValues runs name := by
  suffices h : ∀ acc, runs.foldl
      (fun times r =>
        match r with
        | .finished rc out =>
          if rc ≠ 0 then times
          else
            match extract_execution_time out name with
            | some t => times ++ [t]
            | none => times
        | .timeoutExpired => times
        | .exc => times)
      acc = acc ++ successValues runs name by
    simpa [collectTimes] using h []
  induction runs with
  | nil => simp [successValues]
  | cons r rs ih =>
    intro acc
    rw [List.foldl_cons, ih]
    cases r with
    | finished rc out =>
      by_cases hrc : rc = 0
      · subst hrc
        cases hex : extract_execution_time out name with
        | none => simp [successValues, hex]
        | some t => simp [successValues, hex]
      · simp [successValues, hrc]
    | timeoutExpired => simp [successValues]
    | exc => simp [successValues]

/-- C3: whenever at least one repetition yields an extracted value, the
Sample returned by the trial runner is the median of exactly the values of
the successful repetitions. -/
theorem sample_is_median_of_successes (runs : List RunResult) (name : String)
    (h : successValues runs name ≠ []) :
    run_java_algorithm true runs name = some (npMedian (successValues runs name)) := by
  rw [run_java_algorithm]
  simp only [Bool.not_true, Bool.false_eq_true, if_false, collectTimes_eq_successValues]
  rw [if_neg (by simpa [List.isEmpty_iff] using h)]

/-- Witness for C3, the spec's scenario: timeouts on repetitions 1 and 2
and a `50 ms` success on repetition 3 yield a Sample of `50.0`. -/
theorem sample_is_median_of_successes_witness :
    successValues
        [RunResult.timeoutExpired, RunResult.timeoutExpired,
          RunResult.finished 0 "Execution time: 50 ms"] "X" ≠ [] ∧
    run_java_algorithm true
        [RunResult.timeoutExpired, RunResult.timeoutExpired,
          RunResult.finished 0 "Execution time: 50 ms"] "X" = some 50 :=
  ⟨by decide,
    (sample_is_median_of_successes
        [RunResult.timeoutExpired, RunResult.timeoutExpired,
          RunResult.finished 0 "Execution time: 50 ms"] "X" (by decide)).trans
      (by decide)⟩

/-! ## Lemmas about the sweep -/

theorem rlookup_setRow_self (row : Row) (c : ℕ) (v : ℚ) :
    rlookup (setRow row c v) c = some v := by
  rw [setRow]
  by_cases hmem : row.any (fun p => p.1 = c)
  · rw [if_pos hmem]
    induction row with
    | nil => simp at hmem
    | cons p ps ih =>
      by_cases hp : p.1 = c
      · simp [rlookup, hp]
      · have : ps.any (fun q => q.1 = c) := by
          simpa [List.any_cons, hp] using hmem
        simp [rlookup, hp, ih this]
  · rw [if_neg hmem]
    induction row with
    | nil => simp [rlookup]
    | cons p ps ih =>
      have hp : ¬ p.1 = c := by
        intro h
        exact hmem (by simp [List.any_cons, h])
      have : ¬ ps.any (fun q => q.1 = c) := by
        intro h
        exact hmem (by simp [List.any_cons, h])
      simpa [rlookup, hp] using ih this

theorem rlookup_map_update (ps : Row) (c c' : ℕ) (v : ℚ) (h : c' ≠ c) :
    rlookup (ps.map (fun p => if p.1 = c then (c, v) else p)) c' = rlookup ps c' := by
  induction ps with
  | nil => rfl
  | cons p ps ih =>
    by_cases hp : p.1 = c
    · have h1 : ¬ ((c : ℕ) = c') := fun hc => h hc.symm
      have h2 : ¬ (p.1 = c') := fun hc => h (hp.symm.trans hc).symm
      simp [rlookup, hp, h1, h2, ih]
    · by_cases hp' : p.1 = c'
      · simp [rlookup, hp, hp', h]
      · simp [rlookup, hp, hp', ih]

theorem rlookup_append_other (row : Row) (c c' : ℕ) (v : ℚ) (h : c' ≠ c) :
    rlookup (row ++ [(c, v)]) c' = rlookup row c' := by
  induction row with
  | nil => simp [rlookup, Ne.symm h]
  | cons p ps ih =>
    by_cases hp : p.1 = c'
    · simp [rlookup, hp]
    · simp [rlookup, hp, ih]

theorem rlookup_setRow_other (row : Row) (c c' : ℕ) (v : ℚ) (h : c' ≠ c) :
    rlookup (setRow row c v) c' = rlookup row c' := by
  rw [setRow]
  by_cases hmem : row.any (fun p => p.1 = c)
  · rw [if_pos hmem]
    exact rlookup_map_update row c c' v h
  · rw [if_neg hmem]
    exact rlookup_append_other row c c' v h

theorem alookup_setTable (t : Table) (a : String) (c : ℕ) (v : ℚ) (k : String) :
    alookup (setTable t a c v) k =
      (alookup t k).map (fun row => if k = a then setRow row c v else row) := by
  induction t with
  | nil => rfl
  | cons p ts ih =>
    have hts := ih
    by_cases hpa : p.1 = a
    · by_cases hpk : p.1 = k
      · have hka : k = a := hpk.symm.trans hpa
        simp [setTable, alookup, hpa, hpk, hka]
      · have hak : ¬ (a = k) := fun hak => hpk (hpa.trans hak)
        simpa [setTable, alookup, hpa, hpk, hak] using hts
    · by_cases hpk : p.1 = k
      · have hka : ¬ (k = a) := fun hk => hpa (hpk.trans hk)
        simp [setTable, alookup, hpa, hpk, hka]
      · simpa [setTable, alookup, hpa, hpk] using hts

theorem lookup2_setTable_self (t : Table) (a : String) (c : ℕ) (v : ℚ)
    (h : (alookup t a).isSome) :
    lookup2 (setTable t a c v) a c = some v := by
  rw [lookup2, alookup_setTable]
  obtain ⟨row, hrow⟩ := Option.isSome_iff_exists.mp h
  simp [hrow, rlookup_setRow_self]

theorem lookup2_setTable_other (t : Table) (a a' : String) (c c' : ℕ) (v : ℚ)
    (h : a' ≠ a ∨ c' ≠ c) :
    lookup2 (setTable t a c v) a' c' = lookup2 t a' c' := by
  rw [lookup2, lookup2, alookup_setTable]
  cases hrow : alookup t a' with
  | none => simp
  | some row =>
    rcases h with h | h
    · simp [h]
    · by_cases ha : a' = a
      · simp [ha, rlookup_setRow_other row c c' v h]
      · simp [ha]

theorem alookup_setTable_isSome (t : Table) (a : String) (c : ℕ) (v : ℚ)
    (k : String) :
    (alookup (setTable t a c v) k).isSome = (alookup t k).isSome := by
  rw [alookup_setTable]
  cases alookup t k <;> simp

theorem sweepInner_cons_some (evalF : String → ℕ → Option ℚ) (c : ℕ)
    (b : String) (bs : List String) (t : Table) (v : ℚ)
    (h : evalF b c = some v) :
    sweepInner evalF c (b :: bs) t = sweepInner evalF c bs (setTable t b c v) := by
  rw [sweepInner, List.foldl_cons, h, sweepInner]

theorem sweepInner_cons_none (evalF : String → ℕ → Option ℚ) (c : ℕ)
    (b : String) (bs : List String) (t : Table)
    (h : evalF b c = none) :
    sweepInner evalF c (b :: bs) t = sweepInner evalF c bs t := by
  rw [sweepInner, List.foldl_cons, h, sweepInner]

theorem alookup_sweepInner_isSome (evalF : String → ℕ → Option ℚ) (c : ℕ)
    (algorithms : List String) (t : Table) (k : String) :
    (alookup (sweepInner evalF c algorithms t) k).isSome = (alookup t k).isSome := by
  induction algorithms generalizing t with
  | nil => rfl
  | cons b bs ih =>
    cases hb : evalF b c with
    | none => rw [sweepInner_cons_none _ _ _ _ _ hb, ih]
    | some v =>
      rw [sweepInner_cons_some _ _ _ _ _ _ hb, ih, alookup_setTable_isSome]

theorem lookup2_sweepInner_other (evalF : String → ℕ → Option ℚ) (c' : ℕ)
    (algorithms : List String) (t : Table) (a : String) (c : ℕ) (h : c' ≠ c) :
    lookup2 (sweepInner evalF c' algorithms t) a c = lookup2 t a c := by
  induction algorithms generalizing t with
  | nil => rfl
  | cons b bs ih =>
    cases hb : evalF b c' with
    | none => rw [sweepInner_cons_none _ _ _ _ _ hb, ih]
    | some v =>
      rw [sweepInner_cons_some _ _ _ _ _ _ hb, ih,
        lookup2_setTable_other t b a c' c v (Or.inr (Ne.symm h))]

theorem lookup2_sweepInner_not_mem (evalF : String → ℕ → Option ℚ) (c' : ℕ)
    (algorithms : List String) (t : Table) (a : String) (c : ℕ)
    (h : a ∉ algorithms) :
    lookup2 (sweepInner evalF c' algorithms t) a c = lookup2 t a c := by
  induction algorithms generalizing t with
  | nil => rfl
  | cons b bs ih =>
    have hba : a ≠ b := fun hab => h (hab ▸ List.mem_cons_self b bs)
    have hbs : a ∉ bs := fun hmem => h (List.mem_cons_of_mem b hmem)
    cases hb : evalF b c' with
    | none => rw [sweepInner_cons_none _ _ _ _ _ hb, ih _ hbs]
    | some v =>
      rw [sweepInner_cons_some _ _ _ _ _ _ hb, ih _ hbs,
        lookup2_setTable_other t b a c' c v (Or.inl hba)]

theorem lookup2_sweepInner_self (evalF : String → ℕ → Option ℚ)
    (algorithms : List String) (t : Table) (a : String) (c : ℕ)
    (ha : a ∈ algorithms) (hkey : (alookup t a).isSome) :
    lookup2 (sweepInner evalF c algorithms t) a c =
      match evalF a c with
      | some v => some v
      | none => lookup2 t a c := by
  induction algorithms generalizing t with
  | nil => cases ha
  | cons b bs ih =>
    by_cases hba : b = a
    · subst hba
      cases hb : evalF b c with
      | none =>
        rw [sweepInner_cons_none _ _ _ _ _ hb]
        simp only [hb]
        by_cases hmem : b ∈ bs
        · rw [ih _ hmem hkey]
          simp only [hb]
        · rw [lookup2_sweepInner_not_mem _ _ _ _ _ _ hmem]
      | some v =>
        rw [sweepInner_cons_some _ _ _ _ _ _ hb]
        simp only [hb]
        by_cases hmem : b ∈ bs
        · rw [ih _ hmem (by rw [alookup_setTable_isSome]; exact hkey)]
          simp only [hb, lookup2_setTable_self t b c v hkey]
        · rw [lookup2_sweepInner_not_mem _ _ _ _ _ _ hmem,
            lookup2_setTable_self t b c v hkey]
    · have hmem : a ∈ bs := by
        rcases List.mem_cons.mp ha with h | h
        · exact absurd h.symm hba
        · exact h
      cases hb : evalF b c with
      | none => rw [sweepInner_cons_none _ _ _ _ _ hb, ih _ hmem hkey]
      | some v =>
        rw [sweepInner_cons_some _ _ _ _ _ _ hb,
          ih _ hmem (by rw [alookup_setTable_isSome]; exact hkey)]
        cases hac : evalF a c with
        | none =>
          simp only [hac]
          exact lookup2_setTable_other t b a c c v (Or.inl (fun h => hba h.symm))
        | some w => simp only [hac]

theorem sweepTable_cons (algorithms : List String) (c' : ℕ) (cs : List ℕ)
    (evalF : String → ℕ → Option ℚ) (t : Table) :
    sweepTable algorithms (c' :: cs) evalF t =
      sweepTable algorithms cs evalF (sweepInner evalF c' algorithms t) := rfl

theorem lookup2_sweepTable (evalF : String → ℕ → Option ℚ)
    (algorithms : List String) (clue_range : List ℕ) (t : Table)
    (a : String) (c : ℕ) (ha : a ∈ algorithms) (hkey : (alookup t a).isSome) :
    lookup2 (sweepTable algorithms clue_range evalF t) a c =
      if c ∈ clue_range then
        match evalF a c with
        | some v => some v
        | none => lookup2 t a c
      else lookup2 t a c := by
  induction clue_range generalizing t with
  | nil => simp [sweepTable]
  | cons c' cs ih =>
    rw [sweepTable_cons]
    have hkey' : (alookup (sweepInner evalF c' algorithms t) a).isSome := by
      rw [alookup_sweepInner_isSome]
      exact hkey
    rw [ih _ hkey']
    by_cases hcc : c' = c
    · subst hcc
      rw [lookup2_sweepInner_self evalF algorithms t a c' ha hkey,
        if_pos (List.mem_cons_self c' cs)]
      by_cases hcs : c' ∈ cs
      · rw [if_pos hcs]
        cases evalF a c' <;> rfl
      · rw [if_neg hcs]
    · rw [lookup2_sweepInner_other evalF c' algorithms t a c hcc]
      have hiff : (c ∈ c' :: cs) ↔ (c ∈ cs) := by
        constructor
        · intro h
          rcases List.mem_cons.mp h with h | h
          · exact absurd h.symm hcc
          · exact h
        · exact List.mem_cons_of_mem _
      by_cases hcs : c ∈ cs
      · rw [if_pos hcs, if_pos (hiff.mpr hcs)]
      · rw [if_neg hcs, if_neg (fun hx => hcs (hiff.mp hx))]

theorem run_evaluation_inner (algorithms : List String) (c : ℕ)
    (evalF : String → ℕ → Option ℚ) :
    ∀ (t : Table) (tr : List (String × ℕ)),
    algorithms.foldl
      (fun st2 a =>
        let tr := st2.2 ++ [(a, c)]
        match evalF a c with
        | some v => (setTable st2.1 a c v, tr)
        | none => (st2.1, tr))
      (t, tr) =
      (sweepInner evalF c algorithms t, tr ++ algorithms.map (fun a => (a, c))) := by
  induction algorithms with
  | nil => simp [sweepInner]
  | cons b bs ih =>
    intro t tr
    rw [List.foldl_cons]
    cases hb : evalF b c with
    | none =>
      simp only [hb]
      rw [ih, sweepInner_cons_none _ _ _ _ _ hb]
      simp
    | some v =>
      simp only [hb]
      rw [ih, sweepInner_cons_some _ _ _ _ _ _ hb]
      simp

theorem run_evaluation_eq (algorithms : List String) (clue_range : List ℕ)
    (evalF : String → ℕ → Option ℚ) (init : Table) :
    run_evaluation algorithms clue_range evalF init =
      (sweepTable algorithms clue_range evalF init,
        clue_range.flatMap (fun c => algorithms.map (fun a => (a, c)))) := by
  suffices h : ∀ (cs : List ℕ) (t : Table) (tr : List (String × ℕ)),
      cs.foldl
        (fun st c =>
          algorithms.foldl
            (fun st2 a =>
              let tr := st2.2 ++ [(a, c)]
              match evalF a c with
              | some v => (setTable st2.1 a c v, tr)
              | none => (st2.1, tr))
            st)
        (t, tr) =
        (sweepTable algorithms cs evalF t,
          tr ++ cs.flatMap (fun c => algorithms.map (fun a => (a, c)))) by
    simpa [run_evaluation] using h clue_range init []
  intro cs
  induction cs with
  | nil => simp [sweepTable]
  | cons c' cs ih =>
    intro t tr
    rw [List.foldl_cons, run_evaluation_inner algorithms c' evalF t tr, ih,
      sweepTable_cons]
    simp

/-- C7: the sweep invokes the trial runner on every (algorithm, condition)
pair strictly sequentially in nested order, condition outer and algorithm
inner: the invocation trace is exactly the conditions in order, each
followed by all algorithms in order, so all algorithms are measured for one
condition before any algorithm is measured for the next. -/
theorem sweep_trace_nested_order (algorithms : List String)
    (clue_range : List ℕ) (evalF : String → ℕ → Option ℚ) (init : Table) :
    (run_evaluation algorithms clue_range evalF init).2 =
      clue_range.flatMap (fun c => algorithms.map (fun a => (a, c))) := by
  rw [run_evaluation_eq]

/-- C4: a pair whose evaluation yields no value inserts nothing into the
result table (the cell still reads as its initial state, `none` for the
empty rows `__init__` creates — in particular distinguishable from `0.0`),
and every other pair of the sweep still receives its own value: the final
cell of every swept pair depends only on that pair's own outcome. -/
theorem sweep_omits_failed_pairs (algorithms : List String)
    (clue_range : List ℕ) (evalF : String → ℕ → Option ℚ) (init : Table)
    (a : String) (c : ℕ) (ha : a ∈ algorithms) (hc : c ∈ clue_range)
    (hkey : (alookup init a).isSome) :
    lookup2 (run_evaluation algorithms clue_range evalF init).1 a c =
      match evalF a c with
      | some v => some v
      | none => lookup2 init a c := by
  rw [run_evaluation_eq]
  exact (lookup2_sweepTable evalF algorithms clue_range init a c ha hkey).trans
    (if_pos hc)

/-- Witness for C4, the spec's scenario: conditions `[2, 3, 4]` over the
two algorithms `X` and `Y` where only the pair `(Y, 3)` fails leaves
`(Y, 3)` absent, stores the 5 other samples, and the failed cell differs
from a stored `0.0`. -/
theorem sweep_omits_failed_pairs_witness :
    lookup2 (run_evaluation ["X", "Y"] [2, 3, 4]
        (fun a c => if a = "Y" ∧ c = 3 then none else some 1)
        [("X", []), ("Y", [])]).1 "Y" 3 = none ∧
    tableSize (run_evaluation ["X", "Y"] [2, 3, 4]
        (fun a c => if a = "Y" ∧ c = 3 then none else some 1)
        [("X", []), ("Y", [])]).1 = 5 ∧
    lookup2 (run_evaluation ["X", "Y"] [2, 3, 4]
        (fun a c => if a = "Y" ∧ c = 3 then none else some 1)
        [("X", []), ("Y", [])]).1 "Y" 3 ≠ some 0 :=
  ⟨(sweep_omits_failed_pairs ["X", "Y"] [2, 3, 4]
      (fun a c => if a = "Y" ∧ c = 3 then none else some 1)
      [("X", []), ("Y", [])] "Y" 3 (by decide) (by decide) (by decide)).trans
    (by decide),
    by decide, by decide⟩

/-! ## Failure absorption in the trial runner -/

theorem successValues_append (l1 l2 : List RunResult) (name : String) :
    successValues (l1 ++ l2) name = successValues l1 name ++ successValues l2 name := by
  simp [successValues]

theorem successValues_skip (l1 l2 : List RunResult) (r : RunResult)
    (name : String) (h : r = RunResult.timeoutExpired ∨ r = RunResult.exc) :
    successValues (l1 ++ r :: l2) name = successValues (l1 ++ l2) name := by
  rcases h with h | h <;> subst h <;> simp [successValues]

theorem run_java_eq_of_successValues_eq (b : Bool) (runs runs' : List RunResult)
    (name : String) (h : successValues runs name = successValues runs' name) :
    run_java_algorithm b runs name = run_java_algorithm b runs' name := by
  rw [run_java_algorithm, run_java_algorithm,
    collectTimes_eq_successValues, collectTimes_eq_successValues, h]

/-- C8: a launch failure or a timeout never escapes the trial runner as a
fault; each becomes a structured per-trial outcome that the repetition loop
absorbs.  A missing `bin` directory yields the structured `None` before any
repetition runs, and a repetition that ends in `TimeoutExpired` (the
standard library raises it only after forcibly killing the child) or in any
other launch exception is skipped, leaving the remaining repetitions and
the reduced result exactly as if it had not happened.  (Captured output is
already decoded with `errors='ignore'`, so undecodable bytes surface as a
plain string on the `finished` outcome, never as an error.) -/
theorem failures_absorbed (b : Bool) (l1 l2 : List RunResult) (r : RunResult)
    (name : String) (h : r = RunResult.timeoutExpired ∨ r = RunResult.exc) :
    run_java_algorithm b (l1 ++ r :: l2) name = run_java_algorithm b (l1 ++ l2) name ∧
    run_java_algorithm false (l1 ++ r :: l2) name = none :=
  ⟨run_java_eq_of_successValues_eq b _ _ name (successValues_skip l1 l2 r name h),
    rfl⟩

/-- Witness for C8: two timeouts around one successful repetition leave the
result exactly that repetition's value, and with the `bin` directory
missing the result is the structured `None`. -/
theorem failures_absorbed_witness :
    run_java_algorithm true
        [RunResult.timeoutExpired, RunResult.finished 0 "Execution time: 50 ms"]
        "X" =
      run_java_algorithm true [RunResult.finished 0 "Execution time: 50 ms"] "X" ∧
    run_java_algorithm false
        [RunResult.timeoutExpired, RunResult.finished 0 "Execution time: 50 ms"]
        "X" = none :=
  ⟨(failures_absorbed true [] [RunResult.finished 0 "Execution time: 50 ms"]
      RunResult.timeoutExpired "X" (Or.inl rfl)).1,
    (failures_absorbed true [] [RunResult.finished 0 "Execution time: 50 ms"]
      RunResult.timeoutExpired "X" (Or.inl rfl)).2⟩

/-- C9: a repetition whose process exits nonzero is skipped before metric
extraction — its captured output contributes nothing to the reduced Sample,
even when that output contains a perfectly recognizable time line; removing
such a repetition leaves the result unchanged. -/
theorem nonzero_exit_never_contributes (b : Bool) (l1 l2 : List RunResult)
    (rc : ℤ) (out name : String) (h : rc ≠ 0) :
    run_java_algorithm b (l1 ++ RunResult.finished rc out :: l2) name =
      run_java_algorithm b (l1 ++ l2) name := by
  apply run_java_eq_of_successValues_eq
  simp [successValues, h]

/-- Witness for C9: a single repetition exiting with code `1` whose output
contains the recognizable line `Execution time: 99 ms` still yields no
Sample. -/
theorem nonzero_exit_never_contributes_witness :
    extract_execution_time "Execution time: 99 ms" "X" = some 99 ∧
    run_java_algorithm true [RunResult.finished 1 "Execution time: 99 ms"] "X" =
      none :=
  ⟨by decide,
    (nonzero_exit_never_contributes true [] [] 1 "Execution time: 99 ms" "X"
      (by decide)).trans (by decide)⟩

/-! ## Lemmas about the ranking -/

theorem insByAvg_perm (p : String × Stats) (l : List (String × Stats)) :
    (insByAvg p l).Perm (p :: l) := by
  induction l with
  | nil => exact List.Perm.refl _
  | cons q qs ih =>
    rw [insByAvg]
    by_cases h : q.2.avg ≤ p.2.avg
    · rw [if_pos h]
      exact (ih.cons q).trans (List.Perm.swap p q qs)
    · rw [if_neg h]

theorem insByAvg_sorted (p : String × Stats) (l : List (String × Stats))
    (h : l.Pairwise (fun x y => x.2.avg ≤ y.2.avg)) :
    (insByAvg p l).Pairwise (fun x y => x.2.avg ≤ y.2.avg) := by
  induction l with
  | nil => simp [insByAvg]
  | cons q qs ih =>
    rw [insByAvg]
    rcases List.pairwise_cons.mp h with ⟨hq, hqs⟩
    by_cases hle : q.2.avg ≤ p.2.avg
    · rw [if_pos hle]
      refine List.pairwise_cons.mpr ⟨?_, ih hqs⟩
      intro x hx
      rcases List.mem_cons.mp ((insByAvg_perm p qs).mem_iff.mp hx) with hx | hx
      · rw [hx]
        exact hle
      · exact hq x hx
    · rw [if_neg hle]
      have hpq : p.2.avg ≤ q.2.avg := le_of_not_le hle
      refine List.pairwise_cons.mpr ⟨?_, h⟩
      intro x hx
      rcases List.mem_cons.mp hx with hx | hx
      · rw [hx]
        exact hpq
      · exact hpq.trans (hq x hx)

theorem sorted_algos_perm (stats : List (String × Stats)) :
    (sorted_algos stats).Perm stats := by
  suffices h : ∀ (l acc : List (String × Stats)),
      (l.foldl (fun acc p => insByAvg p acc) acc).Perm (acc ++ l) by
    simpa using h stats []
  intro l
  induction l with
  | nil => simp
  | cons p ps ih =>
    intro acc
    rw [List.foldl_cons]
    refine (ih (insByAvg p acc)).trans ?_
    refine (((insByAvg_perm p acc).append_right ps).trans ?_)
    simpa using List.perm_middle.symm

theorem sorted_algos_sorted (stats : List (String × Stats)) :
    (sorted_algos stats).Pairwise (fun x y => x.2.avg ≤ y.2.avg) := by
  suffices h : ∀ (l acc : List (String × Stats)),
      acc.Pairwise (fun x y => x.2.avg ≤ y.2.avg) →
      (l.foldl (fun acc p => insByAvg p acc) acc).Pairwise
        (fun x y => x.2.avg ≤ y.2.avg) by
    exact h stats [] (by simp)
  intro l
  induction l with
  | nil => exact fun acc h => h
  | cons p ps ih =>
    intro acc hacc
    rw [List.foldl_cons]
    exact ih _ (insByAvg_sorted p acc hacc)

/-- C6: the reporter orders algorithms ascending by mean Sample value
(the sorted list is ordered and is a permutation of the statistics entries)
and reports every non-best entry's slowdown as its mean divided by the best
mean; with means `10, 20, 40` the ranking is `A, B, C` with slowdowns
`2.0` and `4.0`. -/
theorem reporter_ranks_by_mean_ascending :
    (∀ t : Table,
      (sorted_algos (summary_stats t)).Pairwise (fun x y => x.2.avg ≤ y.2.avg)) ∧
    (∀ t : Table, (sorted_algos (summary_stats t)).Perm (summary_stats t)) ∧
    (∀ (t : Table) (best : String × Stats) (rest : List (String × Stats)),
      sorted_algos (summary_stats t) = best :: rest →
      rankingReport (summary_stats t) =
        (best.1, best.2.avg, none) ::
          rest.map (fun p => (p.1, p.2.avg, some (p.2.avg / best.2.avg)))) ∧
    rankingReport (summary_stats exRankTable) =
      [("A", 10, none), ("B", 20, some 2), ("C", 40, some 4)] := by
  refine ⟨fun t => sorted_algos_sorted _, fun t => sorted_algos_perm _,
    fun t best rest h => ?_, ?_⟩
  · rw [rankingReport, h]
  · have hstats : summary_stats exRankTable =
        [("A", ⟨10, 10, 10, 0⟩), ("B", ⟨20, 20, 20, 0⟩), ("C", ⟨40, 40, 40, 0⟩)] := by
      norm_num [exRankTable, summary_stats, npMean, npMin, npMax, npVarSq,
        List.filterMap_cons, Stats.mk.injEq]
    rw [hstats]
    norm_num [rankingReport, sorted_algos, insByAvg]

/-- Witness for C6: instantiating the ranking shape at the scenario table,
whose sorted statistics start with `A` (mean 10) followed by `B` and `C`. -/
theorem reporter_ranks_by_mean_ascending_witness :
    rankingReport (summary_stats exRankTable) =
      (("A", (⟨10, 10, 10, 0⟩ : Stats)).1, (("A", (⟨10, 10, 10, 0⟩ : Stats))).2.avg,
          none) ::
        [("B", (⟨20, 20, 20, 0⟩ : Stats)), ("C", (⟨40, 40, 40, 0⟩ : Stats))].map
          (fun p => (p.1, p.2.avg,
            some (p.2.avg / (("A", (⟨10, 10, 10, 0⟩ : Stats))).2.avg))) :=
  reporter_ranks_by_mean_ascending.2.2.1 exRankTable
    ("A", ⟨10, 10, 10, 0⟩) [("B", ⟨20, 20, 20, 0⟩), ("C", ⟨40, 40, 40, 0⟩)]
    (by norm_num [exRankTable, summary_stats, npMean, npMin, npMax, npVarSq,
      List.filterMap_cons, Stats.mk.injEq, sorted_algos, insByAvg])

/-! ## Empty rows in the summary -/

theorem row_unique_of_nodup (t : Table) (a : String)
    (hnd : (t.map (fun p => p.1)).Nodup) (h : alookup t a = some ([] : Row)) :
    ∀ p ∈ t, p.1 = a → p.2 = ([] : Row) := by
  induction t with
  | nil =>
    intro p hp _
    exact absurd hp (List.not_mem_nil p)
  | cons q ts ih =>
    intro p hp hpa
    rcases List.mem_cons.mp hp with hp | hp
    · subst hp
      rw [alookup, if_pos hpa] at h
      exact Option.some_injective _ h
    · by_cases hqa : q.1 = a
      · exfalso
        have : a ∈ ts.map (fun p => p.1) :=
          List.mem_map.mpr ⟨p, hp, hpa⟩
        rw [List.map_cons, List.nodup_cons, hqa] at hnd
        exact hnd.1 this
      · rw [alookup, if_neg hqa] at h
        exact ih ((List.map_cons _ _ _ ▸ hnd).of_cons) h p hp hpa

theorem alookup_eq_none_of_not_mem {α : Type} (l : List (String × α))
    (a : String) (h : ∀ p ∈ l, p.1 ≠ a) : alookup l a = none := by
  induction l with
  | nil => rfl
  | cons q ts ih =>
    rw [alookup, if_neg (h q (List.mem_cons_self q ts))]
    exact ih (fun p hp => h p (List.mem_cons_of_mem q hp))

theorem rankingReport_keys (stats : List (String × Stats)) :
    (rankingReport stats).map (fun e => e.1) =
      (sorted_algos stats).map (fun p => p.1) := by
  rw [rankingReport]
  cases h : sorted_algos stats with
  | nil => rfl
  | cons best rest => simp

/-- C10: an algorithm whose row in the result table is empty is omitted
from the computed summary statistics, from the ranking, and from the
`statistics` section of the serialized document, while its name still
appears in the `results` section mapped to an empty mapping. -/
theorem empty_row_omitted_from_summary (t : Table) (a : String)
    (hnd : (t.map (fun p => p.1)).Nodup) (h : alookup t a = some ([] : Row)) :
    (∀ s ∈ summary_stats t, s.1 ≠ a) ∧
    (∀ e ∈ rankingReport (summary_stats t), e.1 ≠ a) ∧
    alookup (summaryDoc t).2 a = none ∧
    alookup (summaryDoc t).1 a = some ([] : Row) := by
  have hstats : ∀ s ∈ summary_stats t, s.1 ≠ a := by
    intro s hs hsa
    rcases List.mem_filterMap.mp hs with ⟨p, hp, hps⟩
    by_cases hemp : p.2.isEmpty
    · rw [if_pos hemp] at hps
      cases hps
    · rw [if_neg hemp] at hps
      have hpair := Option.some_injective _ hps
      rw [← hpair] at hsa
      have hp1 : p.1 = a := hsa
      have := row_unique_of_nodup t a hnd h p hp hp1
      rw [this] at hemp
      exact hemp rfl
  refine ⟨hstats, ?_, ?_, ?_⟩
  · intro e he hea
    have hmem : e.1 ∈ (rankingReport (summary_stats t)).map (fun e => e.1) :=
      List.mem_map.mpr ⟨e, he, rfl⟩
    rw [rankingReport_keys] at hmem
    rcases List.mem_map.mp hmem with ⟨p, hp, hpa⟩
    have hp' : p ∈ summary_stats t := (sorted_algos_perm _).subset hp
    exact hstats p hp' (hpa.trans hea)
  · exact alookup_eq_none_of_not_mem _ a hstats
  · exact h

/-- Witness for C10: in a table where `GCS` has an empty row and `CDP` has
one sample, `GCS` is absent from statistics and ranking but still present
in the `results` section with an empty mapping. -/
theorem empty_row_omitted_from_summary_witness :
    (∀ s ∈ summary_stats [("GCS", ([] : Row)), ("CDP", [(2, 5)])], s.1 ≠ "GCS") ∧
    alookup (summaryDoc [("GCS", ([] : Row)), ("CDP", [(2, 5)])]).2 "GCS" = none ∧
    alookup (summaryDoc [("GCS", ([] : Row)), ("CDP", [(2, 5)])]).1 "GCS" =
      some ([] : Row) :=
  ⟨(empty_row_omitted_from_summary [("GCS", []), ("CDP", [(2, 5)])] "GCS"
      (by decide) (by decide)).1,
    (empty_row_omitted_from_summary [("GCS", []), ("CDP", [(2, 5)])] "GCS"
      (by decide) (by decide)).2.2.1,
    (empty_row_omitted_from_summary [("GCS", []), ("CDP", [(2, 5)])] "GCS"
      (by decide) (by decide)).2.2.2⟩

/-! ## Round trip of the serialized document -/

theorem stripLit_append (lit s : List Char) : stripLit lit (lit ++ s) = some s := by
  induction lit with
  | nil => rfl
  | cons c cs ih => simp [stripLit, ih]

theorem isPyDigit_digitChar (d : Fin 10) : isPyDigit (digitChar d) = true := by
  revert d
  decide

theorem charDigit_digitChar (d : Fin 10) : charDigit (digitChar d) = d := by
  revert d
  decide

theorem takeWhile_digits (l : List (Fin 10)) (r : List Char)
    (hr : r.takeWhile isPyDigit = []) :
    (l.map digitChar ++ r).takeWhile isPyDigit = l.map digitChar := by
  induction l with
  | nil => exact hr
  | cons d ds ih => simp [List.takeWhile_cons, isPyDigit_digitChar, ih]

theorem dropWhile_digits (l : List (Fin 10)) (r : List Char)
    (hr : r.takeWhile isPyDigit = []) :
    (l.map digitChar ++ r).dropWhile isPyDigit = r := by
  induction l with
  | nil =>
    cases r with
    | nil => rfl
    | cons c cs =>
      rw [List.takeWhile_cons] at hr
      by_cases hc : isPyDigit c
      · rw [hc] at hr
        cases hr
      · simp [List.dropWhile_cons, hc]
  | cons d ds ih => simp [List.dropWhile_cons, isPyDigit_digitChar, ih]

theorem map_charDigit_digitChar (l : List (Fin 10)) :
    (l.map digitChar).map charDigit = l := by
  induction l with
  | nil => rfl
  | cons d ds ih => simp [charDigit_digitChar, ih]

theorem takeWhile_key (l : List Char) (r : List Char) (hl : ∀ c ∈ l, c ≠ '"') :
    (l ++ '"' :: r).takeWhile (fun c => c ≠ '"') = l := by
  induction l with
  | nil => simp [List.takeWhile_cons]
  | cons c cs ih =>
    have hc : (c : Char) ≠ '"' := hl c (List.mem_cons_self c cs)
    have ih' := ih (fun x hx => hl x (List.mem_cons_of_mem c hx))
    simp only [decide_not] at ih'
    simp [List.takeWhile_cons, hc, ih']

theorem dropWhile_key (l : List Char) (r : List Char) (hl : ∀ c ∈ l, c ≠ '"') :
    (l ++ '"' :: r).dropWhile (fun c => c ≠ '"') = '"' :: r := by
  induction l with
  | nil =>
    rw [List.nil_append, List.dropWhile_cons]
    simp
  | cons c cs ih =>
    have hc : (c : Char) ≠ '"' := hl c (List.mem_cons_self c cs)
    simp only [List.cons_append, List.dropWhile_cons]
    rw [if_pos (by simpa using hc)]
    exact ih (fun x hx => hl x (List.mem_cons_of_mem c hx))

theorem parseKey_append (k : String) (r : List Char)
    (hk : ∀ c ∈ k.toList, c ≠ '"') :
    parseKey (k.toList ++ '"' :: r) = some (k, r) := by
  rw [parseKey]
  rw [takeWhile_key k.toList r hk, dropWhile_key k.toList r hk]
  rfl

theorem isPyDigit_dot : isPyDigit '.' = false := rfl

theorem digitChar_ne_dash (d : Fin 10) : digitChar d ≠ '-' := by
  revert d
  decide

theorem parseDec_printDec (d : Dec) (r : List Char) (hd : WFDec d)
    (hr : r.takeWhile isPyDigit = []) :
    parseDec (printDec d ++ r) = some (d, r) := by
  obtain ⟨hip, hfp⟩ := hd
  obtain ⟨neg, ip, fp⟩ := d
  simp only at hip hfp
  have hdot : ('.' :: (fp.map digitChar ++ r)).takeWhile isPyDigit = [] := by
    simp [List.takeWhile_cons, isPyDigit_dot]
  have h1 := takeWhile_digits ip ('.' :: (fp.map digitChar ++ r)) hdot
  have h2 := dropWhile_digits ip ('.' :: (fp.map digitChar ++ r)) hdot
  have h3 := takeWhile_digits fp r hr
  have h4 := dropWhile_digits fp r hr
  have hipne : (ip.map digitChar).isEmpty = false := by
    cases ip with
    | nil => exact absurd rfl hip
    | cons a as => rfl
  have hfpne : (fp.map digitChar).isEmpty = false := by
    cases fp with
    | nil => exact absurd rfl hfp
    | cons a as => rfl
  cases neg with
  | true =>
    have hform : printDec ⟨true, ip, fp⟩ ++ r =
        '-' :: (ip.map digitChar ++ '.' :: (fp.map digitChar ++ r)) := by
      simp [printDec]
    rw [hform, parseDec]
    simp only [h1, h2, h3, h4, hipne, hfpne, Bool.false_eq_true, if_false,
      map_charDigit_digitChar]
  | false =>
    have hform : printDec ⟨false, ip, fp⟩ ++ r =
        ip.map digitChar ++ '.' :: (fp.map digitChar ++ r) := by
      simp [printDec]
    rw [hform, parseDec]
    case x =>
      cases hip' : ip with
      | nil => exact absurd hip' hip
      | cons i0 is =>
        intro r1 hcontra
        rw [List.map_cons, List.cons_append] at hcontra
        exact absurd (List.cons.inj hcontra).1 (digitChar_ne_dash i0)
    simp only [h1, h2, h3, h4, hipne, hfpne, Bool.false_eq_true, if_false,
      map_charDigit_digitChar]

theorem takeWhile_digits_nl (l : List Char) :
    ('\n' :: l).takeWhile isPyDigit = [] := by
  simp [List.takeWhile_cons]
  rfl

theorem takeWhile_digits_comma (l : List Char) :
    (',' :: l).takeWhile isPyDigit = [] := by
  simp [List.takeWhile_cons]
  rfl

theorem parseInnerItems_append (sec : Sec) (r : List Char) (fuel : ℕ)
    (hwf : ∀ q ∈ sec, safeKey q.1 ∧ WFDec q.2)
    (hne : sec ≠ [])
    (hfuel : sec.length ≤ fuel) :
    parseInnerItems fuel (innerItems sec ++ "\n    \x7d".toList ++ r) =
      some (sec, r) := by
  induction sec generalizing fuel r with
  | nil => exact absurd rfl hne
  | cons p ps ih =>
    obtain ⟨hk, hd⟩ := hwf p (List.mem_cons_self p ps)
    have hkq : ∀ c ∈ p.1.toList, c ≠ '"' := fun c hc => (hk c hc).1
    cases fuel with
    | zero => simp at hfuel
    | succ fuel =>
      cases ps with
      | nil =>
        have hform : innerItems [p] ++ "\n    \x7d".toList ++ r =
            "      \"".toList ++ (p.1.toList ++ '"' :: (": ".toList ++
              (printDec p.2 ++ ('\n' :: ("    \x7d".toList ++ r))))) := by
          rw [show "      \"".toList = "      ".toList ++ ['"'] from rfl,
            show ('\n' :: ("    \x7d".toList ++ r)) = "\n    \x7d".toList ++ r from rfl]
          simp [innerItems, innerItem, quoteKey]
        rw [hform, parseInnerItems, stripLit_append]
        simp only [Bind.bind, Option.bind]
        rw [parseKey_append p.1 _ hkq]
        simp only [Bind.bind, Option.bind]
        rw [stripLit_append]
        simp only [Bind.bind, Option.bind]
        rw [parseDec_printDec p.2 _ hd (takeWhile_digits_nl _)]
        simp only [Bind.bind, Option.bind]
        rw [show stripLit ",\n".toList ('\n' :: ("    \x7d".toList ++ r)) = none from rfl,
          show ('\n' :: ("    \x7d".toList ++ r)) = "\n    \x7d".toList ++ r from rfl,
          stripLit_append]
      | cons p' ps' =>
        have hform : innerItems (p :: p' :: ps') ++ "\n    \x7d".toList ++ r =
            "      \"".toList ++ (p.1.toList ++ '"' :: (": ".toList ++
              (printDec p.2 ++ (',' :: '\n' ::
                (innerItems (p' :: ps') ++ "\n    \x7d".toList ++ r))))) := by
          rw [show "      \"".toList = "      ".toList ++ ['"'] from rfl]
          simp [innerItems, innerItem, quoteKey]
        rw [hform, parseInnerItems, stripLit_append]
        simp only [Bind.bind, Option.bind]
        rw [parseKey_append p.1 _ hkq]
        simp only [Bind.bind, Option.bind]
        rw [stripLit_append]
        simp only [Bind.bind, Option.bind]
        rw [parseDec_printDec p.2 _ hd (takeWhile_digits_comma _)]
        simp only [Bind.bind, Option.bind]
        rw [show (',' :: '\n' :: (innerItems (p' :: ps') ++ "\n    \x7d".toList ++ r)) =
          ",\n".toList ++ (innerItems (p' :: ps') ++ "\n    \x7d".toList ++ r) from rfl,
          stripLit_append]
        dsimp only
        rw [ih _ fuel (fun q hq => hwf q (List.mem_cons_of_mem p hq)) (by simp)
          (Nat.le_of_succ_le_succ hfuel)]

theorem innerItem_length (p : String × Dec) : 1 ≤ (innerItem p).length := by
  simp [innerItem]

theorem innerItems_length (sec : Sec) : sec.length ≤ (innerItems sec).length := by
  induction sec with
  | nil => simp
  | cons p ps ih =>
    cases ps with
    | nil => simpa [innerItems] using innerItem_length p
    | cons p' ps' =>
      have hii : innerItems (p :: p' :: ps') =
          innerItem p ++ ",\n".toList ++ innerItems (p' :: ps') := rfl
      rw [hii]
      have h1 := innerItem_length p
      simp only [List.length_cons] at ih ⊢
      simp only [List.length_append]
      omega

theorem parseSec_append (sec : Sec) (r : List Char)
    (hwf : ∀ q ∈ sec, safeKey q.1 ∧ WFDec q.2) :
    parseSec (renderSec sec ++ r) = some (sec, r) := by
  cases sec with
  | nil => rfl
  | cons p ps =>
    rw [parseSec]
    have hrs : renderSec (p :: ps) =
        "\x7b\n".toList ++ innerItems (p :: ps) ++ "\n    \x7d".toList := rfl
    have h1 : stripLit "\x7b\x7d".toList (renderSec (p :: ps) ++ r) = none := by
      rw [hrs]
      rfl
    rw [h1]
    have hform : renderSec (p :: ps) ++ r =
        "\x7b\n".toList ++ (innerItems (p :: ps) ++ "\n    \x7d".toList ++ r) := by
      rw [hrs]
      simp
    rw [hform, stripLit_append]
    dsimp only [Bind.bind, Option.bind]
    rw [parseInnerItems_append (p :: ps) r _ hwf (by simp) ?hf]
    case hf =>
      have hlen := innerItems_length (p :: ps)
      simp only [List.length_cons] at hlen ⊢
      simp only [List.length_append]
      omega

theorem outerItem_length (p : String × Sec) : 1 ≤ (outerItem p).length := by
  simp [outerItem]

theorem outerItems_length (m : List (String × Sec)) :
    m.length ≤ (outerItems m).length := by
  induction m with
  | nil => simp
  | cons p ps ih =>
    cases ps with
    | nil => simpa [outerItems] using outerItem_length p
    | cons p' ps' =>
      have hoi : outerItems (p :: p' :: ps') =
          outerItem p ++ ",\n".toList ++ outerItems (p' :: ps') := rfl
      rw [hoi]
      have h1 := outerItem_length p
      simp only [List.length_cons] at ih ⊢
      simp only [List.length_append]
      omega


theorem parseOuterItems_append (m : List (String × Sec)) (r : List Char)
    (fuel : ℕ)
    (hwf : ∀ p ∈ m, safeKey p.1 ∧ ∀ q ∈ p.2, safeKey q.1 ∧ WFDec q.2)
    (hne : m ≠ [])
    (hfuel : m.length ≤ fuel) :
    parseOuterItems fuel (outerItems m ++ "\n  \x7d".toList ++ r) =
      some (m, r) := by
  induction m generalizing fuel r with
  | nil => exact absurd rfl hne
  | cons p ps ih =>
    obtain ⟨hk, hsec⟩ := hwf p (List.mem_cons_self p ps)
    have hkq : ∀ c ∈ p.1.toList, c ≠ '"' := fun c hc => (hk c hc).1
    cases fuel with
    | zero => simp at hfuel
    | succ fuel =>
      cases ps with
      | nil =>
        have hform : outerItems [p] ++ "\n  \x7d".toList ++ r =
            "    \"".toList ++ (p.1.toList ++ '"' :: (": ".toList ++
              (renderSec p.2 ++ ('\n' :: ("  \x7d".toList ++ r))))) := by
          rw [show "    \"".toList = "    ".toList ++ ['"'] from rfl,
            show ('\n' :: ("  \x7d".toList ++ r)) = "\n  \x7d".toList ++ r from rfl]
          simp [outerItems, outerItem, quoteKey]
        rw [hform, parseOuterItems, stripLit_append]
        simp only [Bind.bind, Option.bind]
        rw [parseKey_append p.1 _ hkq]
        simp only [Bind.bind, Option.bind]
        rw [stripLit_append]
        simp only [Bind.bind, Option.bind]
        rw [parseSec_append p.2 _ hsec]
        simp only [Bind.bind, Option.bind]
        rw [show stripLit ",\n".toList ('\n' :: ("  \x7d".toList ++ r)) = none from rfl,
          show ('\n' :: ("  \x7d".toList ++ r)) = "\n  \x7d".toList ++ r from rfl,
          stripLit_append]
      | cons p' ps' =>
        have hform : outerItems (p :: p' :: ps') ++ "\n  \x7d".toList ++ r =
            "    \"".toList ++ (p.1.toList ++ '"' :: (": ".toList ++
              (renderSec p.2 ++ (',' :: '\n' ::
                (outerItems (p' :: ps') ++ "\n  \x7d".toList ++ r))))) := by
          rw [show "    \"".toList = "    ".toList ++ ['"'] from rfl]
          simp [outerItems, outerItem, quoteKey]
        rw [hform, parseOuterItems, stripLit_append]
        simp only [Bind.bind, Option.bind]
        rw [parseKey_append p.1 _ hkq]
        simp only [Bind.bind, Option.bind]
        rw [stripLit_append]
        simp only [Bind.bind, Option.bind]
        rw [parseSec_append p.2 _ hsec]
        simp only [Bind.bind, Option.bind]
        rw [show (',' :: '\n' :: (outerItems (p' :: ps') ++ "\n  \x7d".toList ++ r)) =
          ",\n".toList ++ (outerItems (p' :: ps') ++ "\n  \x7d".toList ++ r) from rfl,
          stripLit_append]
        dsimp only
        rw [ih _ fuel (fun q hq => hwf q (List.mem_cons_of_mem p hq)) (by simp)
          (Nat.le_of_succ_le_succ hfuel)]

theorem parseMap_append (m : List (String × Sec)) (r : List Char)
    (hwf : ∀ p ∈ m, safeKey p.1 ∧ ∀ q ∈ p.2, safeKey q.1 ∧ WFDec q.2) :
    parseMap (renderMap m ++ r) = some (m, r) := by
  cases m with
  | nil => rfl
  | cons p ps =>
    rw [parseMap]
    have hrm : renderMap (p :: ps) =
        "\x7b\n".toList ++ outerItems (p :: ps) ++ "\n  \x7d".toList := rfl
    have h1 : stripLit "\x7b\x7d".toList (renderMap (p :: ps) ++ r) = none := by
      rw [hrm]
      rfl
    rw [h1]
    have hform : renderMap (p :: ps) ++ r =
        "\x7b\n".toList ++ (outerItems (p :: ps) ++ "\n  \x7d".toList ++ r) := by
      rw [hrm]
      simp
    rw [hform, stripLit_append]
    dsimp only [Bind.bind, Option.bind]
    rw [parseOuterItems_append (p :: ps) r _ hwf (by simp) ?hf]
    case hf =>
      have hlen := outerItems_length (p :: ps)
      simp only [List.length_cons] at hlen ⊢
      simp only [List.length_append]
      omega

theorem stripLit_self (l : List Char) : stripLit l l = some [] := by
  simpa using stripLit_append l []

/-- C5: serializing a well-formed result document and deserializing it
yields the original structure (every algorithm/condition/value triple
intact, in order), and reserializing what was deserialized is byte-identical
to the first serialization. -/
theorem serialize_roundtrip_idempotent (d : JDoc) (h : WFDoc d) :
    parseDoc (serializeDoc d) = some d ∧
    (parseDoc (serializeDoc d)).map serializeDoc = some (serializeDoc d) := by
  have hmain : parseDoc (serializeDoc d) = some d := by
    obtain ⟨hres, hst⟩ := h
    obtain ⟨res, st⟩ := d
    have hlist : (serializeDoc (res, st)).toList =
        "\x7b\n  \"results\": ".toList ++ (renderMap res ++
          (",\n  \"statistics\": ".toList ++ (renderMap st ++ "\n\x7d".toList))) := by
      simp [serializeDoc]
    rw [parseDoc, hlist, stripLit_append]
    simp only [Bind.bind, Option.bind]
    rw [parseMap_append res _ hres]
    simp only [Bind.bind, Option.bind]
    rw [stripLit_append]
    simp only [Bind.bind, Option.bind]
    rw [parseMap_append st _ hst]
    simp only [Bind.bind, Option.bind]
    rw [stripLit_self]
    simp only [Bind.bind, Option.bind]
    rfl
  exact ⟨hmain, by rw [hmain]; rfl⟩

/-- Witness for C5: a concrete document with two algorithms, one of them
with an empty row, and a statistics section round-trips and reserializes to
the identical byte string. -/
theorem serialize_roundtrip_idempotent_witness :
    WFDoc ([("GCS", [("2", ⟨false, [4, 5], [3]⟩), ("3", ⟨false, [7, 8], [2]⟩)]),
        ("CDP", [])],
      [("GCS", [("avg", ⟨false, [6, 1], [7, 5]⟩)])]) ∧
    parseDoc (serializeDoc
        ([("GCS", [("2", ⟨false, [4, 5], [3]⟩), ("3", ⟨false, [7, 8], [2]⟩)]),
          ("CDP", [])],
        [("GCS", [("avg", ⟨false, [6, 1], [7, 5]⟩)])])) =
      some ([("GCS", [("2", ⟨false, [4, 5], [3]⟩), ("3", ⟨false, [7, 8], [2]⟩)]),
          ("CDP", [])],
        [("GCS", [("avg", ⟨false, [6, 1], [7, 5]⟩)])]) :=
  ⟨by decide,
    (serialize_roundtrip_idempotent
      ([("GCS", [("2", ⟨false, [4, 5], [3]⟩), ("3", ⟨false, [7, 8], [2]⟩)]),
        ("CDP", [])],
      [("GCS", [("avg", ⟨false, [6, 1], [7, 5]⟩)])]) (by decide)).1⟩
